import Mathlib

/-!
Verification of the neural-network trainer in `nn.py`.

The numerical engine is embedded shallowly:

* NumPy scalars are modelled as elements of an arbitrary `LinearOrderedField α`
  (floating point is idealised as exact field arithmetic); the transcendental
  functions `np.exp` and `np.log` are abstract parameters `vexp vlog : α → α`,
  so every definition stays computable and all algebraic claims hold for any
  interpretation of them.
* NumPy 2-D arrays are a `Mat α`: explicit `rows`/`cols` dimensions plus a
  total entry function (entries outside the dimensions are junk and never
  constrained); `np.dot`, broadcasting of an `(n,1)` bias, elementwise maps,
  transposition and summation are defined below.
* Flat parameter vectors (`np.zeros(dim)` one-dimensional arrays) are
  functions `ℕ → α`; in-place slice assignment becomes a functional update.
* Python loops become structural recursions carrying the loop state.
-/

namespace Nn

/-- The activation kinds the registry of `NnModel.__init__` knows. -/
inductive ActKind
  | relu
  | sigmoid
deriving DecidableEq, Inhabited

variable {α : Type} [LinearOrderedField α]

/-- `relu(z) = np.maximum(0, z)` (elementwise scalar rule). -/
def relu (z : α) : α := max 0 z

/-- `relu_backward(dA, Z) = np.multiply(dA, np.int64(Z > 0))` (scalar rule):
the indicator is `1` exactly when `Z > 0`, strictly. -/
def relu_backward (dA Z : α) : α := dA * (if 0 < Z then 1 else 0)

/-- `relu_derv(z) = np.where(z >= 0, 1.0, 0.0)` (scalar rule): `1` when
`z ≥ 0`, inclusive at `0`. -/
def relu_derv (z : α) : α := if 0 ≤ z then 1 else 0

/-- `sigmoid(z) = 1. / (1. + np.exp(-z))`, with `np.exp` abstracted as `vexp`. -/
def sigmoid (vexp : α → α) (z : α) : α := 1 / (1 + vexp (-z))

/-- `sigmoid_backward(dA, z) = dA * a * (1 - a)` where `a = sigmoid(z)`. -/
def sigmoid_backward (vexp : α → α) (dA z : α) : α :=
  dA * sigmoid vexp z * (1 - sigmoid vexp z)

/-- `sigmoid_derv(z) = a * (1 - a)` where `a = sigmoid(z)`. -/
def sigmoid_derv (vexp : α → α) (z : α) : α :=
  sigmoid vexp z * (1 - sigmoid vexp z)

/-- The `value` entry of the activation registry (`activations[kind][0]`). -/
def actValue (vexp : α → α) : ActKind → α → α
  | ActKind.relu => relu
  | ActKind.sigmoid => sigmoid vexp

/-- The `derivative` entry of the activation registry (`activations[kind][1]`). -/
def actDerv (vexp : α → α) : ActKind → α → α
  | ActKind.relu => relu_derv
  | ActKind.sigmoid => sigmoid_derv vexp

/-- The `backward` entry of the activation registry (`activations[kind][2]`). -/
def actBackward (vexp : α → α) : ActKind → α → α → α
  | ActKind.relu => relu_backward
  | ActKind.sigmoid => sigmoid_backward vexp

/-- A 2-D NumPy array: dimensions plus a total entry function.  Entries at
indices `≥ rows`/`≥ cols` are junk and carry no information. -/
structure Mat (α : Type) where
  rows : ℕ
  cols : ℕ
  entry : ℕ → ℕ → α

/-- The empty placeholder array (used where Python holds `None`). -/
def Mat.junk : Mat α := ⟨0, 0, fun _ _ => 0⟩

instance : Inhabited (Mat α) := ⟨Mat.junk⟩

/-- Two arrays agree as NumPy values: same shape and equal entries inside it. -/
def Mat.EqOn (A B : Mat α) : Prop :=
  A.rows = B.rows ∧ A.cols = B.cols ∧
    ∀ i j, i < A.rows → j < A.cols → A.entry i j = B.entry i j

/-- Elementwise map (NumPy ufunc application), shape preserved. -/
def Mat.map (f : α → α) (A : Mat α) : Mat α :=
  ⟨A.rows, A.cols, fun i j => f (A.entry i j)⟩

/-- Elementwise combination of two same-shaped arrays; the shape is taken
from the first argument. -/
def Mat.map2 (f : α → α → α) (A B : Mat α) : Mat α :=
  ⟨A.rows, A.cols, fun i j => f (A.entry i j) (B.entry i j)⟩

/-- `np.dot` of a `(r,k)` by a `(k,c)` array. -/
def Mat.mul (A B : Mat α) : Mat α :=
  ⟨A.rows, B.cols, fun i j =>
    Finset.sum (Finset.range A.cols) (fun k => A.entry i k * B.entry k j)⟩

/-- Broadcast addition `M + b` of a `(n,1)` column `b` onto an `(n,m)` array. -/
def Mat.addCol (M b : Mat α) : Mat α :=
  ⟨M.rows, M.cols, fun i j => M.entry i j + b.entry i 0⟩

/-- Elementwise sum of two same-shaped arrays. -/
def Mat.add (A B : Mat α) : Mat α := Mat.map2 (fun x y => x + y) A B

/-- Scalar multiple of an array. -/
def Mat.smul (c : α) (A : Mat α) : Mat α := Mat.map (fun x => c * x) A

/-- `A.T`. -/
def Mat.transpose (A : Mat α) : Mat α := ⟨A.cols, A.rows, fun i j => A.entry j i⟩

/-- `np.sum(M, axis=1, keepdims=True)`: the `(n,1)` column of row sums. -/
def Mat.rowSum (M : Mat α) : Mat α :=
  ⟨M.rows, 1, fun i _ => Finset.sum (Finset.range M.cols) (fun j => M.entry i j)⟩

/-- `np.sum(M)` over all entries. -/
def Mat.sumAll (M : Mat α) : α :=
  Finset.sum (Finset.range M.rows) (fun i =>
    Finset.sum (Finset.range M.cols) (fun j => M.entry i j))

/-- One layer record: `NnLayer = namedtuple('NnLayer', ['dim', 'activation'])`;
the activation holds the registry triple, modelled by its `ActKind` tag, or
`none` for the input layer. -/
structure NnLayer where
  dim : ℕ
  activation : Option ActKind
deriving DecidableEq, Inhabited

/-- `NnModel.add(units, activation, input_dim=0)`: if `input_dim != 0` and no
layers exist yet, first append an input layer with no activation; then append
the transformation layer. -/
def add (layers : List NnLayer) (units : ℕ) (activation : ActKind)
    (input_dim : ℕ) : List NnLayer :=
  let layers' :=
    if input_dim ≠ 0 ∧ layers = [] then
      layers ++ [⟨input_dim, none⟩]
    else layers
  layers' ++ [⟨units, some activation⟩]

/-- A whole construction sequence: fold `add` over the calls
`(units, activation, input_dim)`, starting from the empty model. -/
def buildModel (calls : List (ℕ × ActKind × ℕ)) : List NnLayer :=
  List.foldl (fun m c => add m c.1 c.2.1 c.2.2) [] calls

/-- `self.layers[l].dim`, with junk dimension `0` out of range. -/
def dimOf (model : List NnLayer) (l : ℕ) : ℕ := (model.getD l default).dim

/-- `self.layers[l].activation`, with junk `none` out of range. -/
def actOf (model : List NnLayer) (l : ℕ) : Option ActKind :=
  (model.getD l default).activation

/-- The loop body of `NnModel.compile`: starting at layer `l` with `fuel`
layers left and current running `offset`, extend the accumulated offset
table. -/
def compileGo (model : List NnLayer) :
    ℕ → ℕ → ℕ → List ((ℕ × ℕ) × (ℕ × ℕ)) → List ((ℕ × ℕ) × (ℕ × ℕ))
  | _, 0, _, acc => acc
  | l, fuel + 1, offset, acc =>
    let p := dimOf model (l - 1)
    let d := dimOf model l
    let w := (offset, offset + p * d)
    let b := (w.2, w.2 + d)
    compileGo model (l + 1) fuel (offset + p * d + d) (acc ++ [(w, b)])

/-- `NnModel.compile()`: the offset table, a placeholder `((0,0),(0,0))` for
layer 0 followed by the `(weight_range, bias_range)` pair of each layer
`1..L`, assigned contiguously from offset 0. -/
def compile (model : List NnLayer) : List ((ℕ × ℕ) × (ℕ × ℕ)) :=
  compileGo model 1 (model.length - 1) 0 [((0, 0), (0, 0))]

/-- Closed form of the running offset: total length of the weight/bias blocks
of layers `1..l-1` (`offsetBefore model 1 = 0`). -/
def offsetBefore (model : List NnLayer) (l : ℕ) : ℕ :=
  Finset.sum (Finset.Ico 1 l) (fun k => dimOf model (k - 1) * dimOf model k + dimOf model k)

/-- Closed form of the layer-`l` entry of the compiled offset table. -/
def tableEntry (model : List NnLayer) (l : ℕ) : (ℕ × ℕ) × (ℕ × ℕ) :=
  let o := offsetBefore model l
  let p := dimOf model (l - 1)
  let d := dimOf model l
  ((o, o + p * d), (o + p * d, o + p * d + d))

/-- `self.layer_offsets[layer]` of a compiled model. -/
def offsets (model : List NnLayer) (layer : ℕ) : (ℕ × ℕ) × (ℕ × ℕ) :=
  (compile model).getD layer ((0, 0), (0, 0))

/-- Total parameter length `Σ_{l≥1} (dim[l]*dim[l-1] + dim[l])`. -/
def totalLen (model : List NnLayer) : ℕ := offsetBefore model model.length

/-- The slice writes of `NnModel.pack_params` (after the shape asserts):
write the row-major flattening of `W` into the weight range and `b` into the
bias range of `layer`, leaving every other index of `params` unchanged. -/
def packWrite (model : List NnLayer) (layer : ℕ) (params : ℕ → α)
    (W b : Mat α) : ℕ → α :=
  let wo := (offsets model layer).1
  let bo := (offsets model layer).2
  let p := dimOf model (layer - 1)
  fun i =>
    if wo.1 ≤ i ∧ i < wo.2 then W.entry ((i - wo.1) / p) ((i - wo.1) % p)
    else if bo.1 ≤ i ∧ i < bo.2 then b.entry (i - bo.1) 0
    else params i

/-- `NnModel.pack_params(layer, params, W, b)`: asserts
`W.shape == (dim[layer], dim[layer-1])` and `b.shape == (dim[layer], 1)`
(`none` models the assertion failure), then performs the slice writes. -/
def pack_params (model : List NnLayer) (layer : ℕ) (params : ℕ → α)
    (W b : Mat α) : Option (ℕ → α) :=
  if W.rows = dimOf model layer ∧ W.cols = dimOf model (layer - 1) ∧
      b.rows = dimOf model layer ∧ b.cols = 1 then
    some (packWrite model layer params W b)
  else none

/-- `NnModel.unpack_params(layer, params)`: read the weight range reshaped
row-major to `(dim[layer], dim[layer-1])` and the bias range reshaped to
`(dim[layer], 1)`; purely a read. -/
def unpack_params (model : List NnLayer) (layer : ℕ) (params : ℕ → α) :
    Mat α × Mat α :=
  let p := dimOf model (layer - 1)
  let d := dimOf model layer
  let wo := (offsets model layer).1
  let bo := (offsets model layer).2
  (⟨d, p, fun i j => params (wo.1 + (i * p + j))⟩,
   ⟨d, 1, fun i _ => params (bo.1 + i)⟩)

/-- Dispatch `layer.activation[0]` on a stored activation; the input layer
holds `none` and is never applied, so that branch is inert. -/
def layerValue (vexp : α → α) : Option ActKind → α → α
  | none => fun z => z
  | some k => actValue vexp k

/-- Dispatch `layer.activation[2]` on a stored activation; `none` is inert. -/
def layerBackward (vexp : α → α) : Option ActKind → α → α → α
  | none => fun dA _ => dA
  | some k => actBackward vexp k

/-- One iteration of the loop in `NnClassifier._propagate_forward` at layer
`l`: unpack `(W, b)`, append `Z[l] = W·A[l-1] + b` and
`A[l] = activation[l].value(Z[l])` to the caches. -/
def fwdStep (model : List NnLayer) (vexp : α → α) (params : ℕ → α) (l : ℕ)
    (s : List (Mat α) × List (Mat α)) : List (Mat α) × List (Mat α) :=
  let W := (unpack_params model l params).1
  let b := (unpack_params model l params).2
  let Z := Mat.addCol (Mat.mul W (s.1.getD (l - 1) default)) b
  (s.1 ++ [Mat.map (layerValue vexp (actOf model l)) Z], s.2 ++ [Z])

/-- The forward loop: run `fwdStep` for `fuel` layers starting at layer `l`. -/
def fwdLoop (model : List NnLayer) (vexp : α → α) (params : ℕ → α) :
    ℕ → ℕ → List (Mat α) × List (Mat α) → List (Mat α) × List (Mat α)
  | _, 0, s => s
  | l, fuel + 1, s => fwdLoop model vexp params (l + 1) fuel (fwdStep model vexp params l s)

/-- `NnClassifier._propagate_forward(params, X)`: caches start as
`A = [X]`, `Z = [None]`, then the loop runs over layers `1..L`. -/
def propagate_forward (model : List NnLayer) (vexp : α → α) (params : ℕ → α)
    (X : Mat α) : List (Mat α) × List (Mat α) :=
  fwdLoop model vexp params 1 (model.length - 1) ([X], [Mat.junk])

/-- Specification recurrence for the activations: `A[0] = X`,
`A[l] = activation[l].value(W_l·A[l-1] + b_l)`. -/
def Aspec (model : List NnLayer) (vexp : α → α) (params : ℕ → α) (X : Mat α) :
    ℕ → Mat α
  | 0 => X
  | l + 1 =>
    Mat.map (layerValue vexp (actOf model (l + 1)))
      (Mat.addCol
        (Mat.mul (unpack_params model (l + 1) params).1
          (Aspec model vexp params X l))
        (unpack_params model (l + 1) params).2)

/-- Specification recurrence for the pre-activations:
`Z[l] = W_l·A[l-1] + b_l`. -/
def Zspec (model : List NnLayer) (vexp : α → α) (params : ℕ → α) (X : Mat α)
    (l : ℕ) : Mat α :=
  Mat.addCol
    (Mat.mul (unpack_params model l params).1 (Aspec model vexp params X (l - 1)))
    (unpack_params model l params).2

/-- The accumulation loop of `NnClassifier._compute_cost`: starting at layer
`l` with running cost `J`, add `(λ/(2m))·np.sum(np.square(W))` per layer. -/
def costLoop (model : List NnLayer) (lambd : α) (params : ℕ → α) (m : ℕ) :
    ℕ → ℕ → α → α
  | _, 0, J => J
  | l, fuel + 1, J =>
    let W := (unpack_params model l params).1
    costLoop model lambd params m (l + 1) fuel
      (J + lambd / (2 * (m : α)) * (Mat.map (fun x => x * x) W).sumAll)

/-- `NnClassifier._compute_cost(params, AL, Y)`: cross-entropy
`J = (1/m)·np.sum(-(Y·log(AL) + (1-Y)·log(1-AL)))` with `m = AL.shape[1]`,
then the regularization loop over layers `1..L`. -/
def compute_cost (model : List NnLayer) (vlog : α → α) (lambd : α)
    (params : ℕ → α) (AL Y : Mat α) : α :=
  let m := AL.cols
  let lossM := Mat.map2 (fun y a => -(y * vlog a + (1 - y) * vlog (1 - a))) Y AL
  costLoop model lambd params m 1 (model.length - 1)
    (1 / (m : α) * lossM.sumAll)

/-- `NnClassifier._linear_backward(dZ, A_prev, W, b)`:
`dW = (1/m)·dZ·A_prev^T + (λ/m)·W`, `db = (1/m)·row-sum(dZ)`,
`dA_prev = W^T·dZ`, with `m = A_prev.shape[1]` (`b` is unused, as in the
source). -/
def linear_backward (lambd : α) (dZ A_prev W b : Mat α) :
    Mat α × Mat α × Mat α :=
  let m := A_prev.cols
  let dW := Mat.add (Mat.smul (1 / (m : α)) (Mat.mul dZ A_prev.transpose))
    (Mat.smul (lambd / (m : α)) W)
  let db := Mat.smul (1 / (m : α)) dZ.rowSum
  let dA_prev := Mat.mul W.transpose dZ
  (dW, db, dA_prev)

/-- The `ε = 1e-8` clamp constant of the output-gradient seed. -/
def eps : α := 1 / 10 ^ 8

/-- The output-layer gradient seed
`dA = -np.divide(Y, AL) + np.divide(1 - Y, np.maximum(1 - AL, 1e-8))`. -/
def seedDA (Y AL : Mat α) : Mat α :=
  Mat.map2 (fun y a => -(y / a) + (1 - y) / max (1 - a) eps) Y AL

/-- One iteration of the loop in `NnClassifier._propagate_backward` at layer
`l`, on the state `(dA, grad)`: `dZ = activation[l].backward(dA, Z[l])`, then
`_linear_backward`, then pack `(dW, db)` into `grad` at layer `l`'s offsets
(the shape assertions of `pack_params` hold along this path, so the packing is
the slice write `packWrite`). -/
def bwdStep (model : List NnLayer) (vexp : α → α) (lambd : α) (params : ℕ → α)
    (A Z : List (Mat α)) (l : ℕ) (s : Mat α × (ℕ → α)) : Mat α × (ℕ → α) :=
  let W := (unpack_params model l params).1
  let b := (unpack_params model l params).2
  let dZ := Mat.map2 (layerBackward vexp (actOf model l)) s.1 (Z.getD l default)
  let r := linear_backward lambd dZ (A.getD (l - 1) default) W b
  (r.2.2, packWrite model l s.2 r.1 r.2.1)

/-- The backward loop: `for l in reversed(range(1, len(model)))` — run
`bwdStep` at layers `l, l-1, ..., 1`. -/
def bwdLoop (model : List NnLayer) (vexp : α → α) (lambd : α) (params : ℕ → α)
    (A Z : List (Mat α)) : ℕ → Mat α × (ℕ → α) → Mat α × (ℕ → α)
  | 0, s => s
  | l + 1, s =>
    bwdLoop model vexp lambd params A Z l
      (bwdStep model vexp lambd params A Z (l + 1) s)

/-- `NnClassifier._propagate_backward(params, A, Z, Y)`: fresh zero gradient,
seed `dA` from `A[-1]`, then the reverse loop over layers `L..1`. -/
def propagate_backward (model : List NnLayer) (vexp : α → α) (lambd : α)
    (params : ℕ → α) (A Z : List (Mat α)) (Y : Mat α) : ℕ → α :=
  let AL := A.getD (A.length - 1) default
  let dA0 := seedDA Y AL
  (bwdLoop model vexp lambd params A Z (model.length - 1) (dA0, fun _ => 0)).2

/-- `NnClassifier._cost(params, X, Y)` — the `cost_and_gradient` routine:
forward pass, cost from `A[-1]`, gradient by backpropagation. -/
def cost (model : List NnLayer) (vexp vlog : α → α) (lambd : α)
    (params : ℕ → α) (X Y : Mat α) : α × (ℕ → α) :=
  let AZ := propagate_forward model vexp params X
  let c := compute_cost model vlog lambd params (AZ.1.getD (AZ.1.length - 1) default) Y
  let grad := propagate_backward model vexp lambd params AZ.1 AZ.2 Y
  (c, grad)

/-- Specification recurrence for the backward `dA` chain: `dAdown 0` is the
seed at layer `L`; `dAdown (j+1) = W_{L-j}^T · dZ_{L-j}` where
`dZ_{L-j} = activation[L-j].backward(dAdown j, Z[L-j])`. -/
def dAdown (model : List NnLayer) (vexp : α → α) (params : ℕ → α)
    (Zs : ℕ → Mat α) (L : ℕ) (seed : Mat α) : ℕ → Mat α
  | 0 => seed
  | j + 1 =>
    Mat.mul (unpack_params model (L - j) params).1.transpose
      (Mat.map2 (layerBackward vexp (actOf model (L - j)))
        (dAdown model vexp params Zs L seed j) (Zs (L - j)))

/-- Specification `dZ` at layer `l`:
`dZ_l = activation[l].backward(dA_l, Z[l])` where `dA_l` is the backward chain
value entering layer `l`. -/
def specDZ (model : List NnLayer) (vexp : α → α) (params : ℕ → α) (X Y : Mat α)
    (l : ℕ) : Mat α :=
  let L := model.length - 1
  Mat.map2 (layerBackward vexp (actOf model l))
    (dAdown model vexp params (Zspec model vexp params X) L
      (seedDA Y (Aspec model vexp params X L)) (L - l))
    (Zspec model vexp params X l)

/-- Specification `dW_l = (1/m)·dZ_l·A[l-1]^T + (λ/m)·W_l` with `m` the batch
size `X.cols`. -/
def specDW (model : List NnLayer) (vexp : α → α) (lambd : α) (params : ℕ → α)
    (X Y : Mat α) (l : ℕ) : Mat α :=
  Mat.add
    (Mat.smul (1 / (X.cols : α))
      (Mat.mul (specDZ model vexp params X Y l)
        (Aspec model vexp params X (l - 1)).transpose))
    (Mat.smul (lambd / (X.cols : α)) (unpack_params model l params).1)

/-- Specification `db_l = (1/m)·row-sum(dZ_l)` with `m` the batch size. -/
def specDb (model : List NnLayer) (vexp : α → α) (params : ℕ → α) (X Y : Mat α)
    (l : ℕ) : Mat α :=
  Mat.smul (1 / (X.cols : α)) (specDZ model vexp params X Y l).rowSum

/-- The gradient vector the specification describes: layer by layer (in
increasing order — order is irrelevant since the ranges are disjoint), write
`(dW_l, db_l)` at layer `l`'s compiled offsets of a fresh zero vector. -/
def gradAssemble (model : List NnLayer) (vexp : α → α) (lambd : α)
    (params : ℕ → α) (X Y : Mat α) : ℕ → ℕ → α
  | 0 => fun _ => 0
  | k + 1 =>
    packWrite model (k + 1) (gradAssemble model vexp lambd params X Y k)
      (specDW model vexp lambd params X Y (k + 1))
      (specDb model vexp params X Y (k + 1))

/-- The loop body of `GradDescentOptimizer.optimize`: `fuel` iterations left,
`i` the absolute iteration index; evaluate `cost_fn`, step the parameters by
`-α·grad`, append the cost to the trace when `i % 100 == 0`. -/
def optLoop (cost_fn : (ℕ → α) → α × (ℕ → α)) (alpha : α) :
    ℕ → ℕ → (ℕ → α) → List α → (ℕ → α) × List α
  | 0, _, params, costs => (params, costs)
  | fuel + 1, i, params, costs =>
    let cg := cost_fn params
    optLoop cost_fn alpha fuel (i + 1) (fun k => params k - alpha * cg.2 k)
      (if i % 100 = 0 then costs ++ [cg.1] else costs)

/-- `GradDescentOptimizer.optimize(cost_fn, params)`: run `iters` iterations
from index 0 with an empty cost trace. -/
def optimize (iters : ℕ) (alpha : α) (cost_fn : (ℕ → α) → α × (ℕ → α))
    (params : ℕ → α) : (ℕ → α) × List α :=
  optLoop cost_fn alpha iters 0 params []

/-- Specification of the gradient-descent iterates:
`params_0 = p0`, `params_{i+1} = params_i - α·grad_i` where
`(cost_i, grad_i) = cost_fn(params_i)`. -/
def paramSeq (cost_fn : (ℕ → α) → α × (ℕ → α)) (alpha : α) (p0 : ℕ → α) :
    ℕ → ℕ → α
  | 0 => p0
  | i + 1 => fun k =>
    paramSeq cost_fn alpha p0 i k - alpha * (cost_fn (paramSeq cost_fn alpha p0 i)).2 k

/-- The L2 penalty `Σ_{l=1}^{L} (λ/(2m))·Σ(W_l²)` in closed form. -/
def l2penalty (model : List NnLayer) (lambd : α) (params : ℕ → α) (m : ℕ) : α :=
  Finset.sum (Finset.Ico 1 model.length) (fun l =>
    lambd / (2 * (m : α)) *
      (Mat.map (fun x => x * x) (unpack_params model l params).1).sumAll)

/-- The cross-entropy term in closed form: the mean over the batch of
`-(Y_j·log(AL_j) + (1-Y_j)·log(1-AL_j))`. -/
def ceCost (vlog : α → α) (AL Y : Mat α) : α :=
  1 / (AL.cols : α) * Finset.sum (Finset.range AL.cols) (fun j =>
    -(Y.entry 0 j * vlog (AL.entry 0 j) +
      (1 - Y.entry 0 j) * vlog (1 - AL.entry 0 j)))

/-- Membership in a half-open offset range. -/
def inR (r : ℕ × ℕ) (i : ℕ) : Prop := r.1 ≤ i ∧ i < r.2

instance (r : ℕ × ℕ) (i : ℕ) : Decidable (inR r i) := by
  unfold inR
  infer_instance

/-! ### Helper lemmas on `add` -/

theorem add_of_ne_nil (m : List NnLayer) (u : ℕ) (a : ActKind) (d : ℕ)
    (hm : m ≠ []) : add m u a d = m ++ [⟨u, some a⟩] := by
  unfold add
  simp [hm]

theorem add_zero_input_dim (m : List NnLayer) (u : ℕ) (a : ActKind) :
    add m u a 0 = m ++ [⟨u, some a⟩] := by
  unfold add
  simp

theorem foldl_add_getD0 :
    ∀ (calls : List (ℕ × ActKind × ℕ)) (m : List NnLayer), m ≠ [] →
      (List.foldl (fun mm c => add mm c.1 c.2.1 c.2.2) m calls).getD 0 default =
        m.getD 0 default := by
  intro calls
  induction calls with
  | nil => intro m _; rfl
  | cons c cs ih =>
    intro m hm
    rw [List.foldl_cons, add_of_ne_nil m c.1 c.2.1 c.2.2 hm]
    have hne : m ++ [(⟨c.1, some c.2.1⟩ : NnLayer)] ≠ [] := by simp
    rw [ih (m ++ [(⟨c.1, some c.2.1⟩ : NnLayer)]) hne]
    match m, hm with
    | x :: xs, _ => rfl

/-! ### Helper lemmas on the compiled offset table -/

theorem offsetBefore_one (model : List NnLayer) : offsetBefore model 1 = 0 := by
  simp [offsetBefore]

theorem offsetBefore_succ (model : List NnLayer) (l : ℕ) (hl : 1 ≤ l) :
    offsetBefore model (l + 1) =
      offsetBefore model l +
        (dimOf model (l - 1) * dimOf model l + dimOf model l) := by
  unfold offsetBefore
  rw [Finset.sum_Ico_succ_top hl]

theorem offsetBefore_mono (model : List NnLayer) {a b : ℕ} (h : a ≤ b) :
    offsetBefore model a ≤ offsetBefore model b :=
  Finset.sum_le_sum_of_subset (Finset.Ico_subset_Ico le_rfl h)

theorem compileGo_eq (model : List NnLayer) :
    ∀ (fuel l : ℕ) (acc : List ((ℕ × ℕ) × (ℕ × ℕ))), 1 ≤ l →
      compileGo model l fuel (offsetBefore model l) acc =
        acc ++ (List.range fuel).map (fun j => tableEntry model (l + j)) := by
  intro fuel
  induction fuel with
  | zero => intro l acc _; simp [compileGo]
  | succ f ih =>
    intro l acc hl
    show compileGo model (l + 1) f
        (offsetBefore model l +
          dimOf model (l - 1) * dimOf model l + dimOf model l)
        (acc ++ [tableEntry model l]) = _
    have harith : offsetBefore model l +
        dimOf model (l - 1) * dimOf model l + dimOf model l =
        offsetBefore model (l + 1) := by
      rw [offsetBefore_succ model l hl]; ring
    rw [harith, ih (l + 1) (acc ++ [tableEntry model l]) (by omega)]
    rw [List.range_succ_eq_map, List.map_cons, List.map_map]
    have hfun : (fun j => tableEntry model (l + j)) ∘ Nat.succ =
        fun j => tableEntry model (l + 1 + j) := by
      funext j
      have : l + Nat.succ j = l + 1 + j := by omega
      simp [Function.comp, this]
    rw [hfun]
    simp

theorem compile_eq (model : List NnLayer) :
    compile model = ((0, 0), (0, 0)) ::
      (List.range (model.length - 1)).map (fun j => tableEntry model (1 + j)) := by
  unfold compile
  have h := compileGo_eq model (model.length - 1) 1 [((0, 0), (0, 0))] le_rfl
  rw [offsetBefore_one model] at h
  rw [h]
  rfl

theorem offsets_eq (model : List NnLayer) (l : ℕ) (h1 : 1 ≤ l)
    (h2 : l < model.length) : offsets model l = tableEntry model l := by
  unfold offsets
  rw [compile_eq]
  match l, h1 with
  | n + 1, _ =>
    rw [List.getD_cons_succ]
    have hn : n < model.length - 1 := by omega
    unfold List.getD
    rw [List.get?_map, List.get?_range hn]
    simp [Nat.add_comm 1 n]

/-! ### Reading back and non-interference of `packWrite` -/

theorem packWrite_apply (model : List NnLayer) (k : ℕ) (h1 : 1 ≤ k)
    (h2 : k < model.length) (params : ℕ → α) (W b : Mat α) (i : ℕ) :
    packWrite model k params W b i =
      if offsetBefore model k ≤ i ∧
          i < offsetBefore model k + dimOf model (k - 1) * dimOf model k then
        W.entry ((i - offsetBefore model k) / dimOf model (k - 1))
          ((i - offsetBefore model k) % dimOf model (k - 1))
      else if offsetBefore model k + dimOf model (k - 1) * dimOf model k ≤ i ∧
          i < offsetBefore model k + dimOf model (k - 1) * dimOf model k +
            dimOf model k then
        b.entry (i - (offsetBefore model k + dimOf model (k - 1) * dimOf model k)) 0
      else params i := by
  unfold packWrite
  rw [offsets_eq model k h1 h2]
  rfl

theorem unpackW_apply (model : List NnLayer) (k : ℕ) (h1 : 1 ≤ k)
    (h2 : k < model.length) (params : ℕ → α) :
    (unpack_params model k params).1 =
      ⟨dimOf model k, dimOf model (k - 1), fun i j =>
        params (offsetBefore model k + (i * dimOf model (k - 1) + j))⟩ := by
  unfold unpack_params
  rw [offsets_eq model k h1 h2]
  rfl

theorem unpackB_apply (model : List NnLayer) (k : ℕ) (h1 : 1 ≤ k)
    (h2 : k < model.length) (params : ℕ → α) :
    (unpack_params model k params).2 =
      ⟨dimOf model k, 1, fun i _ =>
        params (offsetBefore model k + dimOf model (k - 1) * dimOf model k + i)⟩ := by
  unfold unpack_params
  rw [offsets_eq model k h1 h2]
  rfl

theorem unpackW_packWrite (model : List NnLayer) (layer : ℕ) (h1 : 1 ≤ layer)
    (h2 : layer < model.length) (params : ℕ → α) (W b : Mat α) (i j : ℕ)
    (hi : i < dimOf model layer) (hj : j < dimOf model (layer - 1)) :
    (unpack_params model layer (packWrite model layer params W b)).1.entry i j =
      W.entry i j := by
  rw [unpackW_apply model layer h1 h2]
  show packWrite model layer params W b
      (offsetBefore model layer + (i * dimOf model (layer - 1) + j)) = _
  rw [packWrite_apply model layer h1 h2]
  set p := dimOf model (layer - 1) with hpdef
  set d := dimOf model layer with hddef
  set o := offsetBefore model layer with hodef
  have hp : 0 < p := by omega
  have hin : i * p + j < p * d := by
    calc i * p + j < i * p + p := by omega
    _ = (i + 1) * p := by ring
    _ ≤ d * p := Nat.mul_le_mul_right p (by omega)
    _ = p * d := Nat.mul_comm d p
  rw [if_pos (by omega)]
  have hq : o + (i * p + j) - o = j + i * p := by omega
  rw [hq, Nat.add_mul_div_right _ _ hp, Nat.add_mul_mod_self_right,
    Nat.div_eq_of_lt hj, Nat.mod_eq_of_lt hj, Nat.zero_add]

theorem unpackB_packWrite (model : List NnLayer) (layer : ℕ) (h1 : 1 ≤ layer)
    (h2 : layer < model.length) (params : ℕ → α) (W b : Mat α) (i j : ℕ)
    (hi : i < dimOf model layer) :
    (unpack_params model layer (packWrite model layer params W b)).2.entry i j =
      b.entry i 0 := by
  rw [unpackB_apply model layer h1 h2]
  show packWrite model layer params W b
      (offsetBefore model layer + dimOf model (layer - 1) * dimOf model layer + i) = _
  rw [packWrite_apply model layer h1 h2]
  rw [if_neg (by omega), if_pos (by omega)]
  congr 1
  omega

theorem packWrite_lower (model : List NnLayer) (k : ℕ) (h1 : 1 ≤ k)
    (h2 : k < model.length) (params : ℕ → α) (W b : Mat α) (i : ℕ)
    (hi : i < offsetBefore model k) :
    packWrite model k params W b i = params i := by
  rw [packWrite_apply model k h1 h2]
  rw [if_neg (by omega), if_neg (by omega)]

theorem packWrite_upper (model : List NnLayer) (k : ℕ) (h1 : 1 ≤ k)
    (h2 : k < model.length) (params : ℕ → α) (W b : Mat α) (i : ℕ)
    (hi : offsetBefore model (k + 1) ≤ i) :
    packWrite model k params W b i = params i := by
  rw [packWrite_apply model k h1 h2]
  have he : offsetBefore model (k + 1) = offsetBefore model k +
      (dimOf model (k - 1) * dimOf model k + dimOf model k) :=
    offsetBefore_succ model k h1
  rw [if_neg (by omega), if_neg (by omega)]

theorem offsets_w1 (model : List NnLayer) (l : ℕ) (h1 : 1 ≤ l)
    (h2 : l < model.length) : (offsets model l).1.1 = offsetBefore model l := by
  rw [offsets_eq model l h1 h2]
  rfl

theorem offsets_w2 (model : List NnLayer) (l : ℕ) (h1 : 1 ≤ l)
    (h2 : l < model.length) : (offsets model l).1.2 =
      offsetBefore model l + dimOf model (l - 1) * dimOf model l := by
  rw [offsets_eq model l h1 h2]
  rfl

theorem offsets_b1 (model : List NnLayer) (l : ℕ) (h1 : 1 ≤ l)
    (h2 : l < model.length) : (offsets model l).2.1 =
      offsetBefore model l + dimOf model (l - 1) * dimOf model l := by
  rw [offsets_eq model l h1 h2]
  rfl

theorem offsets_b2 (model : List NnLayer) (l : ℕ) (h1 : 1 ≤ l)
    (h2 : l < model.length) : (offsets model l).2.2 =
      offsetBefore model (l + 1) := by
  rw [offsets_eq model l h1 h2, offsetBefore_succ model l h1]
  show offsetBefore model l + dimOf model (l - 1) * dimOf model l + dimOf model l = _
  omega

theorem exists_layer_of_lt (model : List NnLayer) :
    ∀ (n : ℕ), ∀ i, i < offsetBefore model n →
      ∃ l, 1 ≤ l ∧ l + 1 ≤ n ∧ offsetBefore model l ≤ i ∧
        i < offsetBefore model (l + 1) := by
  intro n
  induction n with
  | zero => intro i hi; rw [show offsetBefore model 0 = 0 by simp [offsetBefore]] at hi; omega
  | succ k ih =>
    intro i hi
    by_cases h : i < offsetBefore model k
    · obtain ⟨l, ha, hb, hc, hd⟩ := ih i h
      exact ⟨l, ha, by omega, hc, hd⟩
    · match k, h, hi with
      | 0, h, hi => rw [offsetBefore_one model] at hi; omega
      | k + 1, h, hi => exact ⟨k + 1, by omega, by omega, by omega, hi⟩

theorem inR_bounds (model : List NnLayer) (l : ℕ) (h1 : 1 ≤ l)
    (h2 : l < model.length) (i : ℕ)
    (h : inR (offsets model l).1 i ∨ inR (offsets model l).2 i) :
    offsetBefore model l ≤ i ∧ i < offsetBefore model (l + 1) := by
  have hw1 := offsets_w1 model l h1 h2
  have hw2 := offsets_w2 model l h1 h2
  have hb1 := offsets_b1 model l h1 h2
  have hb2 := offsets_b2 model l h1 h2
  have hstep := offsetBefore_succ model l h1
  unfold inR at h
  omega

theorem ranges_disjoint_of_lt (model : List NnLayer) (l lp : ℕ) (h1 : 1 ≤ l)
    (hlt : l < lp) (h2 : lp < model.length) (i : ℕ)
    (ha : inR (offsets model l).1 i ∨ inR (offsets model l).2 i)
    (hb : inR (offsets model lp).1 i ∨ inR (offsets model lp).2 i) : False := by
  have hA := inR_bounds model l h1 (by omega) i ha
  have hB := inR_bounds model lp (by omega) h2 i hb
  have hmono : offsetBefore model (l + 1) ≤ offsetBefore model lp :=
    offsetBefore_mono model (by omega)
  omega

/-- C4: after `compile()`, each layer `l ≥ 1` gets a weight range of length
`dim[l]·dim[l-1]` immediately followed by a bias range of length `dim[l]`;
the ranges are contiguous and non-overlapping in increasing layer order
(starting at 0), and their union covers
`[0, Σ_{l≥1}(dim[l]·dim[l-1] + dim[l]))` exactly once: every index below the
total length lies in some layer's weight or bias range, ranges of distinct
layers never share an index, and no index is in both the weight and the bias
range of one layer. -/
theorem offset_table_partition (model : List NnLayer) :
    (∀ l, 1 ≤ l → l < model.length →
      (offsets model l).1.2 =
        (offsets model l).1.1 + dimOf model l * dimOf model (l - 1) ∧
      (offsets model l).2.1 = (offsets model l).1.2 ∧
      (offsets model l).2.2 = (offsets model l).2.1 + dimOf model l) ∧
    (1 < model.length → (offsets model 1).1.1 = 0) ∧
    (∀ l, 1 ≤ l → l + 1 < model.length →
      (offsets model (l + 1)).1.1 = (offsets model l).2.2) ∧
    (∀ i, i < totalLen model ↔
      ∃ l, 1 ≤ l ∧ l < model.length ∧
        (inR (offsets model l).1 i ∨ inR (offsets model l).2 i)) ∧
    (∀ l lp, 1 ≤ l → l < model.length → 1 ≤ lp → lp < model.length → l ≠ lp →
      ∀ i, ¬((inR (offsets model l).1 i ∨ inR (offsets model l).2 i) ∧
        (inR (offsets model lp).1 i ∨ inR (offsets model lp).2 i))) ∧
    (∀ l, 1 ≤ l → l < model.length →
      ∀ i, ¬(inR (offsets model l).1 i ∧ inR (offsets model l).2 i)) := by
  refine ⟨?_, ?_, ?_, ?_, ?_, ?_⟩
  · intro l h1 h2
    have hw1 := offsets_w1 model l h1 h2
    have hw2 := offsets_w2 model l h1 h2
    have hb1 := offsets_b1 model l h1 h2
    have hb2 := offsets_b2 model l h1 h2
    have hstep := offsetBefore_succ model l h1
    have hcomm : dimOf model l * dimOf model (l - 1) =
      dimOf model (l - 1) * dimOf model l := Nat.mul_comm _ _
    omega
  · intro h
    rw [offsets_w1 model 1 le_rfl h, offsetBefore_one]
  · intro l h1 h2
    rw [offsets_w1 model (l + 1) (by omega) h2, offsets_b2 model l h1 (by omega)]
  · intro i
    constructor
    · intro hi
      obtain ⟨l, ha, hb, hc, hd⟩ := exists_layer_of_lt model model.length i hi
      have h2 : l < model.length := by omega
      have hw1 := offsets_w1 model l ha h2
      have hw2 := offsets_w2 model l ha h2
      have hb1 := offsets_b1 model l ha h2
      have hb2 := offsets_b2 model l ha h2
      refine ⟨l, ha, h2, ?_⟩
      by_cases hcase :
          i < offsetBefore model l + dimOf model (l - 1) * dimOf model l
      · exact Or.inl (by unfold inR; omega)
      · exact Or.inr (by unfold inR; omega)
    · intro ⟨l, h1, h2, hor⟩
      have hb := inR_bounds model l h1 h2 i hor
      have hmono : offsetBefore model (l + 1) ≤ offsetBefore model model.length :=
        offsetBefore_mono model (by omega)
      unfold totalLen
      omega
  · intro l lp h1 h2 h3 h4 hne i ⟨ha, hb⟩
    rcases Nat.lt_or_ge l lp with hlt | hge
    · exact ranges_disjoint_of_lt model l lp h1 hlt h4 i ha hb
    · exact ranges_disjoint_of_lt model lp l h3 (by omega) h2 i hb ha
  · intro l h1 h2 i ⟨ha, hb⟩
    have hw2 := offsets_w2 model l h1 h2
    have hb1 := offsets_b1 model l h1 h2
    unfold inR at ha hb
    omega

/-- Witness for C4 at the concrete model `[2, 3 relu, 1 sigmoid]`, layer 1. -/
theorem offset_table_partition_witness :
    (1 : ℕ) ≤ 1 ∧
    (offsets [⟨2, none⟩, ⟨3, some ActKind.relu⟩, ⟨1, some ActKind.sigmoid⟩] 1).1.2 =
      (offsets [⟨2, none⟩, ⟨3, some ActKind.relu⟩, ⟨1, some ActKind.sigmoid⟩] 1).1.1 +
        dimOf [⟨2, none⟩, ⟨3, some ActKind.relu⟩, ⟨1, some ActKind.sigmoid⟩] 1 *
          dimOf [⟨2, none⟩, ⟨3, some ActKind.relu⟩, ⟨1, some ActKind.sigmoid⟩] 0 ∧
    (offsets [⟨2, none⟩, ⟨3, some ActKind.relu⟩, ⟨1, some ActKind.sigmoid⟩] 1).2.1 =
      (offsets [⟨2, none⟩, ⟨3, some ActKind.relu⟩, ⟨1, some ActKind.sigmoid⟩] 1).1.2 ∧
    (offsets [⟨2, none⟩, ⟨3, some ActKind.relu⟩, ⟨1, some ActKind.sigmoid⟩] 1).2.2 =
      (offsets [⟨2, none⟩, ⟨3, some ActKind.relu⟩, ⟨1, some ActKind.sigmoid⟩] 1).2.1 +
        dimOf [⟨2, none⟩, ⟨3, some ActKind.relu⟩, ⟨1, some ActKind.sigmoid⟩] 1 :=
  ⟨le_rfl,
    (offset_table_partition
      [⟨2, none⟩, ⟨3, some ActKind.relu⟩, ⟨1, some ActKind.sigmoid⟩]).1 1
      (by decide) (by decide)⟩

/-- C5: packing a correctly shaped `(W, b)` at layer `l` into a zero
parameter vector succeeds (the shape assertions pass), and unpacking layer `l`
from the written vector returns exactly `(W, b)`; packing any wrongly shaped
pair fails the assertion (`none`).  Unpacking is a pure read by
construction. -/
theorem pack_unpack_roundtrip (model : List NnLayer) (layer : ℕ) (W b : Mat α)
    (h1 : 1 ≤ layer) (h2 : layer < model.length)
    (hWr : W.rows = dimOf model layer) (hWc : W.cols = dimOf model (layer - 1))
    (hbr : b.rows = dimOf model layer) (hbc : b.cols = 1) :
    pack_params model layer (fun _ => 0) W b =
      some (packWrite model layer (fun _ => 0) W b) ∧
    Mat.EqOn (unpack_params model layer
      (packWrite model layer (fun _ => 0) W b)).1 W ∧
    Mat.EqOn (unpack_params model layer
      (packWrite model layer (fun _ => 0) W b)).2 b ∧
    (∀ W2 b2 : Mat α,
      ¬(W2.rows = dimOf model layer ∧ W2.cols = dimOf model (layer - 1) ∧
        b2.rows = dimOf model layer ∧ b2.cols = 1) →
      pack_params model layer (fun _ => 0) W2 b2 = none) := by
  refine ⟨?_, ⟨?_, ?_, ?_⟩, ⟨?_, ?_, ?_⟩, ?_⟩
  · unfold pack_params
    rw [if_pos ⟨hWr, hWc, hbr, hbc⟩]
  · exact hWr.symm
  · exact hWc.symm
  · intro i j hi hj
    exact unpackW_packWrite model layer h1 h2 (fun _ => 0) W b i j hi hj
  · exact hbr.symm
  · exact hbc.symm
  · intro i j hi hj
    have hj1 : j < 1 := hj
    have hj0 : j = 0 := by omega
    subst hj0
    exact unpackB_packWrite model layer h1 h2 (fun _ => 0) W b i 0 hi
  · intro W2 b2 hbad
    unfold pack_params
    rw [if_neg hbad]

/-- Witness for C5: model `[2, 1 relu]`, layer 1, `W : (1,2)`, `b : (1,1)`
over `ℚ`. -/
theorem pack_unpack_roundtrip_witness :
    (1 : ℕ) ≤ 1 ∧
    Mat.EqOn (unpack_params [⟨2, none⟩, ⟨1, some ActKind.relu⟩] 1
      (packWrite [⟨2, none⟩, ⟨1, some ActKind.relu⟩] 1 (fun _ => (0 : ℚ))
        ⟨1, 2, fun i j => (i : ℚ) + 2 * j⟩ ⟨1, 1, fun _ _ => 3⟩)).1
      ⟨1, 2, fun i j => (i : ℚ) + 2 * j⟩ :=
  ⟨le_rfl,
    (pack_unpack_roundtrip [⟨2, none⟩, ⟨1, some ActKind.relu⟩] 1
      ⟨1, 2, fun i j => (i : ℚ) + 2 * j⟩ ⟨1, 1, fun _ _ => 3⟩
      (by decide) (by decide) rfl rfl rfl rfl).2.1⟩

/-- C7 counterexample: at `Z = 0`, `dA = 1`, the code's `relu_backward`
returns `0` (strict `Z > 0` test) whereas `dA ⊙ relu_derv(Z)` is `1`
(`relu_derv` is inclusive at 0), so `relu.backward(dA, Z)` is **not**
`dA ⊙ relu.derivative(Z)` and does not return `dA` where `Z = 0`. -/
theorem relu_backward_claim_false :
    ¬(relu_backward (1 : ℚ) 0 = 1 * relu_derv (0 : ℚ)) := by
  unfold relu_backward relu_derv
  norm_num

/-- C7 amended: `relu.backward(dA, Z) = dA ⊙ [Z > 0]` with a strict test;
it agrees with `dA ⊙ relu.derivative(Z)` at every position where `Z ≠ 0`,
and at positions where `Z = 0` it returns `0` (while the derivative rule
returns `1` there). -/
theorem relu_backward_boundary (dA z : α) :
    relu_backward dA z = dA * (if 0 < z then 1 else 0) ∧
    (z ≠ 0 → relu_backward dA z = dA * relu_derv z) ∧
    (z = 0 → relu_backward dA z = 0 ∧ relu_derv z = 1) := by
  refine ⟨rfl, ?_, ?_⟩
  · intro hz
    unfold relu_backward relu_derv
    rcases lt_trichotomy z 0 with h | h | h
    · rw [if_neg (by linarith), if_neg (by linarith)]
    · exact absurd h hz
    · rw [if_pos h, if_pos (le_of_lt h)]
  · intro hz
    unfold relu_backward relu_derv
    rw [hz]
    norm_num

/-- Witness for C7's amended statement at `dA = 2`, `z = 3`. -/
theorem relu_backward_boundary_witness :
    (3 : ℚ) ≠ 0 ∧ relu_backward (2 : ℚ) 3 = 2 * relu_derv (3 : ℚ) :=
  ⟨by norm_num, (relu_backward_boundary (2 : ℚ) 3).2.1 (by norm_num)⟩

/-- C9 counterexample: a model built by a single `add(1, relu)` call with the
default `input_dim = 0` has, at index 0, the transformation layer itself,
whose activation is `relu`, not `none`. -/
theorem layer0_activation_counterexample :
    ((buildModel [(1, ActKind.relu, 0)]).getD 0 default).activation ≠ none := by
  decide

/-- C9 amended: if the construction *begins* with an `add` call that passes a
nonzero `input_dim`, then the layer at index 0 is the inserted input layer and
its activation is `none`, whatever `add` calls follow. -/
theorem layer0_activation_none_with_input_dim (u : ℕ) (a : ActKind) (d : ℕ)
    (calls : List (ℕ × ActKind × ℕ)) (hd : d ≠ 0) :
    ((buildModel ((u, a, d) :: calls)).getD 0 default).activation = none := by
  unfold buildModel
  rw [List.foldl_cons]
  have hfirst : add ([] : List NnLayer) u a d =
      [⟨d, none⟩, ⟨u, some a⟩] := by
    unfold add
    rw [if_pos ⟨hd, rfl⟩]
    rfl
  rw [hfirst, foldl_add_getD0 calls [⟨d, none⟩, ⟨u, some a⟩] (by simp)]
  rfl

/-- Witness for C9's amended statement: first call `add(1, relu, 2)`. -/
theorem layer0_activation_none_witness :
    (2 : ℕ) ≠ 0 ∧
    ((buildModel [(1, ActKind.relu, 2)]).getD 0 default).activation = none :=
  ⟨by decide, layer0_activation_none_with_input_dim 1 ActKind.relu 2 [] (by decide)⟩

/-- C10: `add` inserts an input layer only when the model is empty **and**
`input_dim ≠ 0`: with the default `input_dim = 0` on an empty model only the
transformation layer is appended; on a non-empty model `input_dim` is ignored
entirely; passing `0` never creates an input layer; and when the model is
empty and `input_dim ≠ 0`, both layers are appended. -/
theorem add_input_dim_semantics :
    (∀ (u : ℕ) (a : ActKind),
      add ([] : List NnLayer) u a 0 = [⟨u, some a⟩]) ∧
    (∀ (m : List NnLayer) (u : ℕ) (a : ActKind) (d : ℕ), m ≠ [] →
      add m u a d = m ++ [⟨u, some a⟩]) ∧
    (∀ (m : List NnLayer) (u : ℕ) (a : ActKind),
      add m u a 0 = m ++ [⟨u, some a⟩]) ∧
    (∀ (u : ℕ) (a : ActKind) (d : ℕ), d ≠ 0 →
      add ([] : List NnLayer) u a d = [⟨d, none⟩, ⟨u, some a⟩]) := by
  refine ⟨?_, ?_, ?_, ?_⟩
  · intro u a
    exact add_zero_input_dim [] u a
  · intro m u a d hm
    exact add_of_ne_nil m u a d hm
  · intro m u a
    exact add_zero_input_dim m u a
  · intro u a d hd
    unfold add
    rw [if_pos ⟨hd, rfl⟩]
    rfl

/-- Witness for C10 at `add([⟨2, none⟩], 3, sigmoid, 7)`: non-empty model,
`input_dim` ignored. -/
theorem add_input_dim_semantics_witness :
    ([⟨2, none⟩] : List NnLayer) ≠ [] ∧
    add [⟨2, none⟩] 3 ActKind.sigmoid 7 =
      [⟨2, none⟩, ⟨3, some ActKind.sigmoid⟩] :=
  ⟨by decide, add_input_dim_semantics.2.1 [⟨2, none⟩] 3 ActKind.sigmoid 7 (by decide)⟩

/-! ### The gradient-descent optimizer -/

theorem paramSeq_shift (cost_fn : (ℕ → α) → α × (ℕ → α)) (alpha : α)
    (p : ℕ → α) : ∀ n, paramSeq cost_fn alpha p (n + 1) =
      paramSeq cost_fn alpha (fun k => p k - alpha * (cost_fn p).2 k) n := by
  intro n
  induction n with
  | zero => rfl
  | succ m ih =>
    show (fun k => paramSeq cost_fn alpha p (m + 1) k -
      alpha * (cost_fn (paramSeq cost_fn alpha p (m + 1))).2 k) = _
    rw [ih]
    rfl

theorem optLoop_eq (cost_fn : (ℕ → α) → α × (ℕ → α)) (alpha : α) :
    ∀ (fuel i : ℕ) (p : ℕ → α) (costs : List α),
      optLoop cost_fn alpha fuel i p costs =
        (paramSeq cost_fn alpha p fuel,
         costs ++ ((List.range fuel).filter (fun j => (i + j) % 100 == 0)).map
           (fun j => (cost_fn (paramSeq cost_fn alpha p j)).1)) := by
  intro fuel
  induction fuel with
  | zero => intro i p costs; simp [optLoop]; rfl
  | succ f ih =>
    intro i p costs
    show optLoop cost_fn alpha f (i + 1)
        (fun k => p k - alpha * (cost_fn p).2 k)
        (if i % 100 = 0 then costs ++ [(cost_fn p).1] else costs) = _
    rw [ih (i + 1) (fun k => p k - alpha * (cost_fn p).2 k)
      (if i % 100 = 0 then costs ++ [(cost_fn p).1] else costs)]
    rw [← paramSeq_shift cost_fn alpha p f]
    have hlist : ((List.range (f + 1)).filter (fun j => (i + j) % 100 == 0)).map
        (fun j => (cost_fn (paramSeq cost_fn alpha p j)).1) =
        (if i % 100 = 0 then [(cost_fn p).1] else []) ++
          ((List.range f).filter (fun j => (i + 1 + j) % 100 == 0)).map
            (fun j => (cost_fn (paramSeq cost_fn alpha
              (fun k => p k - alpha * (cost_fn p).2 k) j)).1) := by
      rw [List.range_succ_eq_map, List.filter_cons]
      have hpred : ((List.range f).map Nat.succ).filter (fun j => (i + j) % 100 == 0) =
          ((List.range f).filter (fun j => (i + 1 + j) % 100 == 0)).map Nat.succ := by
        rw [List.filter_map]
        congr 1
        apply List.filter_congr
        intro x _
        have : i + Nat.succ x = i + 1 + x := by omega
        simp [Function.comp, this]
      rw [hpred]
      have hcost : ∀ j, (cost_fn (paramSeq cost_fn alpha p (Nat.succ j))).1 =
          (cost_fn (paramSeq cost_fn alpha
            (fun k => p k - alpha * (cost_fn p).2 k) j)).1 := by
        intro j
        rw [paramSeq_shift cost_fn alpha p j]
      by_cases hc : i % 100 = 0
      · have hb : ((i + 0) % 100 == 0) = true := by
          rw [Nat.add_zero, hc]
          rfl
        rw [if_pos hb, if_pos hc]
        rw [List.map_cons, List.map_map, List.singleton_append]
        congr 1
        apply List.map_congr_left
        intro x _
        exact hcost x
      · have hb : ¬(((i + 0) % 100 == 0) = true) := by
          rw [Nat.add_zero]
          simp only [Nat.beq_eq_true_eq]
          exact hc
        rw [if_neg hb, if_neg hc]
        rw [List.map_map, List.nil_append]
        apply List.map_congr_left
        intro x _
        exact hcost x
    rw [hlist]
    by_cases hc : i % 100 = 0
    · rw [if_pos hc, if_pos hc]
      simp
    · rw [if_neg hc, if_neg hc]
      simp

/-- C6: `optimize(cost_fn, p0)` performs exactly `iters` gradient steps
`params_{i+1} = params_i - α·grad_i` with `(cost_i, grad_i) = cost_fn(params_i)`,
returns `params_iters`, and the cost trace is exactly the list of `cost_i` for
the `i ∈ [0, iters)` with `i % 100 = 0`, in increasing order of `i` (so `i = 0`
is always logged when `iters > 0`); there is no convergence check or early
stopping — the result is fully determined by the iteration count. -/
theorem optimize_fixed_iteration (iters : ℕ) (alpha : α)
    (cost_fn : (ℕ → α) → α × (ℕ → α)) (p0 : ℕ → α) :
    optimize iters alpha cost_fn p0 =
      (paramSeq cost_fn alpha p0 iters,
       ((List.range iters).filter (fun i => i % 100 == 0)).map
         (fun i => (cost_fn (paramSeq cost_fn alpha p0 i)).1)) := by
  unfold optimize
  rw [optLoop_eq cost_fn alpha iters 0 p0 []]
  rw [List.nil_append]
  have hpred : (fun j => (0 + j) % 100 == 0) = (fun i => i % 100 == 0) := by
    funext j
    rw [Nat.zero_add]
  rw [hpred]

/-! ### The forward pass -/

/-- The activation cache after processing layers `1..j`:
`[Aspec 0, …, Aspec j]`. -/
def Alist (model : List NnLayer) (vexp : α → α) (params : ℕ → α) (X : Mat α)
    (j : ℕ) : List (Mat α) :=
  (List.range (j + 1)).map (Aspec model vexp params X)

/-- The pre-activation cache after processing layers `1..j`:
`[None, Zspec 1, …, Zspec j]`. -/
def Zlist (model : List NnLayer) (vexp : α → α) (params : ℕ → α) (X : Mat α)
    (j : ℕ) : List (Mat α) :=
  Mat.junk :: (List.range j).map (fun k => Zspec model vexp params X (k + 1))

theorem getD_map_range (f : ℕ → Mat α) (n i : ℕ) (h : i < n) :
    ((List.range n).map f).getD i default = f i := by
  unfold List.getD
  rw [List.get?_map, List.get?_range h]
  rfl

theorem Alist_getD (model : List NnLayer) (vexp : α → α) (params : ℕ → α)
    (X : Mat α) (j l : ℕ) (h : l ≤ j) :
    (Alist model vexp params X j).getD l default =
      Aspec model vexp params X l := by
  unfold Alist
  exact getD_map_range (Aspec model vexp params X) (j + 1) l (by omega)

theorem Zlist_getD (model : List NnLayer) (vexp : α → α) (params : ℕ → α)
    (X : Mat α) (j l : ℕ) (h1 : 1 ≤ l) (h2 : l ≤ j) :
    (Zlist model vexp params X j).getD l default =
      Zspec model vexp params X l := by
  unfold Zlist
  match l, h1 with
  | n + 1, _ =>
    rw [List.getD_cons_succ]
    rw [getD_map_range (fun k => Zspec model vexp params X (k + 1)) j n (by omega)]

theorem fwdStep_eq (model : List NnLayer) (vexp : α → α) (params : ℕ → α)
    (X : Mat α) (j : ℕ) :
    fwdStep model vexp params (j + 1)
        (Alist model vexp params X j, Zlist model vexp params X j) =
      (Alist model vexp params X (j + 1), Zlist model vexp params X (j + 1)) := by
  have hA : Alist model vexp params X (j + 1) =
      Alist model vexp params X j ++ [Aspec model vexp params X (j + 1)] := by
    unfold Alist
    rw [List.range_succ, List.map_append]
    rfl
  have hZ : Zlist model vexp params X (j + 1) =
      Zlist model vexp params X j ++ [Zspec model vexp params X (j + 1)] := by
    unfold Zlist
    rw [List.range_succ, List.map_append]
    rfl
  rw [hA, hZ]
  unfold fwdStep
  rw [Alist_getD model vexp params X j (j + 1 - 1) (by omega)]
  rfl

theorem fwdLoop_eq (model : List NnLayer) (vexp : α → α) (params : ℕ → α)
    (X : Mat α) : ∀ (f j : ℕ),
    fwdLoop model vexp params (j + 1) f
        (Alist model vexp params X j, Zlist model vexp params X j) =
      (Alist model vexp params X (j + f), Zlist model vexp params X (j + f)) := by
  intro f
  induction f with
  | zero => intro j; rfl
  | succ g ih =>
    intro j
    show fwdLoop model vexp params (j + 1 + 1) g
      (fwdStep model vexp params (j + 1)
        (Alist model vexp params X j, Zlist model vexp params X j)) = _
    rw [fwdStep_eq model vexp params X j, ih (j + 1)]
    have harith : j + 1 + g = j + (g + 1) := by omega
    rw [harith]

theorem propagate_forward_eq (model : List NnLayer) (vexp : α → α)
    (params : ℕ → α) (X : Mat α) :
    propagate_forward model vexp params X =
      (Alist model vexp params X (model.length - 1),
       Zlist model vexp params X (model.length - 1)) := by
  unfold propagate_forward
  have hstart : (([X], [Mat.junk]) : List (Mat α) × List (Mat α)) =
      (Alist model vexp params X 0, Zlist model vexp params X 0) := rfl
  rw [hstart]
  have h := fwdLoop_eq model vexp params X (model.length - 1) 0
  simp only [Nat.zero_add] at h
  exact h

theorem Aspec_cols (model : List NnLayer) (vexp : α → α) (params : ℕ → α)
    (X : Mat α) : ∀ l, (Aspec model vexp params X l).cols = X.cols := by
  intro l
  induction l with
  | zero => rfl
  | succ k ih =>
    show (Aspec model vexp params X k).cols = X.cols
    exact ih

theorem Aspec_rows (model : List NnLayer) (vexp : α → α) (params : ℕ → α)
    (X : Mat α) (l : ℕ) :
    (Aspec model vexp params X (l + 1)).rows = dimOf model (l + 1) := rfl

/-- C3: the forward pass returns caches `A[0..L]`, `Z[0..L]` (one entry per
layer) with `A[0] = X`, and for every `l ∈ 1..L`:
`Z[l] = W_l·A[l-1] + b_l` (with `(W_l, b_l)` unpacked from `params` at layer
`l`) and `A[l] = activation[l].value(Z[l])`; moreover when `X` has shape
`(dim[0], m)` every `A[l]` has shape `(dim[l], m)`.  (`params` is consumed
purely — the embedding of the pass is a function of it, so it cannot be
mutated.) -/
theorem forward_caches_recurrence (model : List NnLayer) (vexp : α → α)
    (params : ℕ → α) (X : Mat α) (hm : model ≠ []) :
    (propagate_forward model vexp params X).1.length = model.length ∧
    (propagate_forward model vexp params X).2.length = model.length ∧
    (propagate_forward model vexp params X).1.getD 0 default = X ∧
    (∀ l, 1 ≤ l → l < model.length →
      (propagate_forward model vexp params X).2.getD l default =
        Mat.addCol
          (Mat.mul (unpack_params model l params).1
            ((propagate_forward model vexp params X).1.getD (l - 1) default))
          (unpack_params model l params).2 ∧
      (propagate_forward model vexp params X).1.getD l default =
        Mat.map (layerValue vexp (actOf model l))
          ((propagate_forward model vexp params X).2.getD l default)) ∧
    (X.rows = dimOf model 0 → ∀ l, l < model.length →
      ((propagate_forward model vexp params X).1.getD l default).rows =
        dimOf model l ∧
      ((propagate_forward model vexp params X).1.getD l default).cols =
        X.cols) := by
  have hlen : model.length - 1 + 1 = model.length := by
    have : model.length ≠ 0 := fun h => hm (List.length_eq_zero.mp h)
    omega
  rw [propagate_forward_eq model vexp params X]
  refine ⟨?_, ?_, ?_, ?_, ?_⟩
  · show (Alist model vexp params X (model.length - 1)).length = model.length
    unfold Alist
    rw [List.length_map, List.length_range, hlen]
  · show (Zlist model vexp params X (model.length - 1)).length = model.length
    unfold Zlist
    rw [List.length_cons, List.length_map, List.length_range, hlen]
  · exact Alist_getD model vexp params X (model.length - 1) 0 (by omega)
  · intro l h1 h2
    rw [Alist_getD model vexp params X (model.length - 1) l (by omega),
      Alist_getD model vexp params X (model.length - 1) (l - 1) (by omega),
      Zlist_getD model vexp params X (model.length - 1) l h1 (by omega)]
    constructor
    · rfl
    · match l, h1 with
      | n + 1, _ => rfl
  · intro hX l hl
    rw [Alist_getD model vexp params X (model.length - 1) l (by omega)]
    match l with
    | 0 => exact ⟨hX, rfl⟩
    | n + 1 =>
      exact ⟨Aspec_rows model vexp params X n, Aspec_cols model vexp params X (n + 1)⟩

/-- Witness for C3 at the concrete model `[1, 1 sigmoid]`, `X : (1,1)` over
`ℚ` with `vexp = id`. -/
theorem forward_caches_recurrence_witness :
    ([⟨1, none⟩, ⟨1, some ActKind.sigmoid⟩] : List NnLayer) ≠ [] ∧
    (propagate_forward [⟨1, none⟩, ⟨1, some ActKind.sigmoid⟩] (fun x => x)
      (fun _ => (1 : ℚ)) ⟨1, 1, fun _ _ => 2⟩).1.getD 0 default =
      (⟨1, 1, fun _ _ => 2⟩ : Mat ℚ) :=
  ⟨by decide,
    (forward_caches_recurrence [⟨1, none⟩, ⟨1, some ActKind.sigmoid⟩]
      (fun x => x) (fun _ => (1 : ℚ)) ⟨1, 1, fun _ _ => 2⟩
      (by decide)).2.2.1⟩

/-! ### The cost -/

theorem costLoop_eq (model : List NnLayer) (lambd : α) (params : ℕ → α)
    (m : ℕ) : ∀ (fuel l : ℕ) (J : α),
    costLoop model lambd params m l fuel J =
      J + Finset.sum (Finset.range fuel) (fun k =>
        lambd / (2 * (m : α)) *
          (Mat.map (fun x => x * x) (unpack_params model (l + k) params).1).sumAll) := by
  intro fuel
  induction fuel with
  | zero => intro l J; simp [costLoop]
  | succ f ih =>
    intro l J
    show costLoop model lambd params m (l + 1) f
      (J + lambd / (2 * (m : α)) *
        (Mat.map (fun x => x * x) (unpack_params model l params).1).sumAll) = _
    rw [ih (l + 1)]
    rw [Finset.sum_range_succ']
    have hfun : ∀ k, lambd / (2 * (m : α)) *
        (Mat.map (fun x => x * x) (unpack_params model (l + (k + 1)) params).1).sumAll =
        lambd / (2 * (m : α)) *
          (Mat.map (fun x => x * x) (unpack_params model (l + 1 + k) params).1).sumAll := by
      intro k
      have : l + (k + 1) = l + 1 + k := by omega
      rw [this]
    rw [Finset.sum_congr rfl (fun k _ => hfun k)]
    have : l + 0 = l := by omega
    rw [this]
    ring

theorem compute_cost_eq (model : List NnLayer) (vlog : α → α) (lambd : α)
    (params : ℕ → α) (AL Y : Mat α) (hYr : Y.rows = 1) (hYc : Y.cols = AL.cols) :
    compute_cost model vlog lambd params AL Y =
      ceCost vlog AL Y + l2penalty model lambd params AL.cols := by
  unfold compute_cost
  rw [costLoop_eq model lambd params AL.cols (model.length - 1) 1]
  have hsum : (Mat.map2
      (fun y a => -(y * vlog a + (1 - y) * vlog (1 - a))) Y AL).sumAll =
      Finset.sum (Finset.range AL.cols) (fun j =>
        -(Y.entry 0 j * vlog (AL.entry 0 j) +
          (1 - Y.entry 0 j) * vlog (1 - AL.entry 0 j))) := by
    unfold Mat.sumAll Mat.map2
    show Finset.sum (Finset.range Y.rows) _ = _
    rw [hYr, Finset.sum_range_one, hYc]
  rw [hsum]
  unfold ceCost l2penalty
  have hIco : Finset.sum (Finset.Ico 1 model.length) (fun l =>
      lambd / (2 * (AL.cols : α)) *
        (Mat.map (fun x => x * x) (unpack_params model l params).1).sumAll) =
      Finset.sum (Finset.range (model.length - 1)) (fun k =>
        lambd / (2 * (AL.cols : α)) *
          (Mat.map (fun x => x * x) (unpack_params model (1 + k) params).1).sumAll) := by
    rw [Finset.sum_Ico_eq_sum_range]
  rw [hIco]

/-- C2: for a final activation `A_L` of shape `(1, m)` and labels `Y` of
shape `(1, m)`, the scalar cost computed by the cost-and-gradient routine is
the mean over the batch of `-(Y_j·log(A_L,j) + (1-Y_j)·log(1-A_L,j))` plus
`Σ_{l≥1} (λ/(2m))·Σ(W_l²)`, and with `λ = 0` it is the cross-entropy mean
alone. -/
theorem compute_cost_formula (model : List NnLayer) (vlog : α → α) (lambd : α)
    (params : ℕ → α) (AL Y : Mat α) (hYr : Y.rows = 1) (hYc : Y.cols = AL.cols) :
    compute_cost model vlog lambd params AL Y =
      ceCost vlog AL Y + l2penalty model lambd params AL.cols ∧
    compute_cost model vlog 0 params AL Y = ceCost vlog AL Y := by
  refine ⟨compute_cost_eq model vlog lambd params AL Y hYr hYc, ?_⟩
  rw [compute_cost_eq model vlog 0 params AL Y hYr hYc]
  unfold l2penalty
  rw [Finset.sum_congr rfl (fun l _ => by rw [zero_div, zero_mul])]
  rw [Finset.sum_const_zero, add_zero]

/-- Witness for C2 at the model `[1, 1 sigmoid]`, `AL = Y = (1,1)` over `ℚ`
with `vlog = id` and `λ = 2`. -/
theorem compute_cost_formula_witness :
    ((⟨1, 1, fun _ _ => 1⟩ : Mat ℚ).rows = 1) ∧
    compute_cost [⟨1, none⟩, ⟨1, some ActKind.sigmoid⟩] (fun x => x) 0
      (fun _ => (1 : ℚ)) ⟨1, 1, fun _ _ => (1 : ℚ) / 2⟩ ⟨1, 1, fun _ _ => 1⟩ =
      ceCost (fun x => x) ⟨1, 1, fun _ _ => (1 : ℚ) / 2⟩ ⟨1, 1, fun _ _ => 1⟩ :=
  ⟨rfl,
    (compute_cost_formula [⟨1, none⟩, ⟨1, some ActKind.sigmoid⟩] (fun x => x) 2
      (fun _ => (1 : ℚ)) ⟨1, 1, fun _ _ => (1 : ℚ) / 2⟩ ⟨1, 1, fun _ _ => 1⟩
      rfl rfl).2⟩

/-- C8: with fixed `(params, A_L, Y)`, positive batch size and at least one
nonzero in-range weight entry, the cost is strictly increasing in `λ`, while
the cross-entropy part (the cost minus the L2 penalty, i.e. the value at
`λ = 0`) is the same for both `λ` values. -/
theorem cost_strict_mono_in_lambda (model : List NnLayer) (vlog : α → α)
    (lambd1 lambd2 : α) (params : ℕ → α) (AL Y : Mat α)
    (hYr : Y.rows = 1) (hYc : Y.cols = AL.cols) (hm : 0 < AL.cols)
    (l0 i0 j0 : ℕ) (hl1 : 1 ≤ l0) (hl2 : l0 < model.length)
    (hi0 : i0 < dimOf model l0) (hj0 : j0 < dimOf model (l0 - 1))
    (hnz : (unpack_params model l0 params).1.entry i0 j0 ≠ 0)
    (hlt : lambd1 < lambd2) :
    compute_cost model vlog lambd1 params AL Y <
      compute_cost model vlog lambd2 params AL Y ∧
    compute_cost model vlog lambd1 params AL Y -
        l2penalty model lambd1 params AL.cols =
      compute_cost model vlog lambd2 params AL Y -
        l2penalty model lambd2 params AL.cols := by
  have hsq : ∀ l, (0 : α) ≤
      (Mat.map (fun x => x * x) (unpack_params model l params).1).sumAll := by
    intro l
    unfold Mat.sumAll
    apply Finset.sum_nonneg
    intro i _
    apply Finset.sum_nonneg
    intro j _
    exact mul_self_nonneg _
  have hpos : (0 : α) <
      (Mat.map (fun x => x * x) (unpack_params model l0 params).1).sumAll := by
    unfold Mat.sumAll
    apply Finset.sum_pos'
    · intro i _
      apply Finset.sum_nonneg
      intro j _
      exact mul_self_nonneg _
    · refine ⟨i0, Finset.mem_range.mpr hi0, ?_⟩
      apply Finset.sum_pos'
      · intro j _
        exact mul_self_nonneg _
      · refine ⟨j0, Finset.mem_range.mpr hj0, ?_⟩
        show (0 : α) < (unpack_params model l0 params).1.entry i0 j0 *
          (unpack_params model l0 params).1.entry i0 j0
        exact mul_self_pos.mpr hnz
  have hS : (0 : α) < Finset.sum (Finset.Ico 1 model.length) (fun l =>
      (Mat.map (fun x => x * x) (unpack_params model l params).1).sumAll) := by
    apply Finset.sum_pos'
    · intro l _
      exact hsq l
    · exact ⟨l0, Finset.mem_Ico.mpr ⟨hl1, hl2⟩, hpos⟩
  have hpen : ∀ lambd : α, l2penalty model lambd params AL.cols =
      lambd / (2 * (AL.cols : α)) * Finset.sum (Finset.Ico 1 model.length)
        (fun l =>
          (Mat.map (fun x => x * x) (unpack_params model l params).1).sumAll) := by
    intro lambd
    unfold l2penalty
    rw [Finset.mul_sum]
  have h2m : (0 : α) < 2 * (AL.cols : α) := by
    have hc : (0 : α) < (AL.cols : α) := by exact_mod_cast hm
    linarith
  have hplt : l2penalty model lambd1 params AL.cols <
      l2penalty model lambd2 params AL.cols := by
    rw [hpen lambd1, hpen lambd2]
    have hq : lambd1 / (2 * (AL.cols : α)) < lambd2 / (2 * (AL.cols : α)) := by
      rw [div_eq_mul_inv, div_eq_mul_inv]
      exact mul_lt_mul_of_pos_right hlt (inv_pos.mpr h2m)
    exact mul_lt_mul_of_pos_right hq hS
  constructor
  · rw [compute_cost_eq model vlog lambd1 params AL Y hYr hYc,
      compute_cost_eq model vlog lambd2 params AL Y hYr hYc]
    exact add_lt_add_left hplt _
  · rw [compute_cost_eq model vlog lambd1 params AL Y hYr hYc,
      compute_cost_eq model vlog lambd2 params AL Y hYr hYc]
    ring

/-- Witness for C8: model `[1, 1 sigmoid]`, `params ≡ 1`, `AL = (1,1)` valued
`1/2`, `Y = (1,1)` valued `1`, `λ` from `0` to `1`, over `ℚ` with
`vlog = id`. -/
theorem cost_strict_mono_in_lambda_witness :
    (0 : ℚ) < 1 ∧
    compute_cost [⟨1, none⟩, ⟨1, some ActKind.sigmoid⟩] (fun x => x) 0
        (fun _ => (1 : ℚ)) ⟨1, 1, fun _ _ => (1 : ℚ) / 2⟩ ⟨1, 1, fun _ _ => 1⟩ <
      compute_cost [⟨1, none⟩, ⟨1, some ActKind.sigmoid⟩] (fun x => x) 1
        (fun _ => (1 : ℚ)) ⟨1, 1, fun _ _ => (1 : ℚ) / 2⟩ ⟨1, 1, fun _ _ => 1⟩ :=
  ⟨by norm_num,
    (cost_strict_mono_in_lambda [⟨1, none⟩, ⟨1, some ActKind.sigmoid⟩]
      (fun x => x) 0 1 (fun _ => (1 : ℚ)) ⟨1, 1, fun _ _ => (1 : ℚ) / 2⟩
      ⟨1, 1, fun _ _ => 1⟩ rfl rfl (by norm_num) 1 0 0 (by decide) (by decide)
      (by decide) (by decide) (by decide) (by norm_num)).1⟩

/-! ### The backward pass -/

theorem dAdown_step (model : List NnLayer) (vexp : α → α) (params : ℕ → α)
    (Zs : ℕ → Mat α) (L : ℕ) (seed : Mat α) (l : ℕ) (hl : l + 1 ≤ L) :
    dAdown model vexp params Zs L seed (L - l) =
      Mat.mul (unpack_params model (l + 1) params).1.transpose
        (Mat.map2 (layerBackward vexp (actOf model (l + 1)))
          (dAdown model vexp params Zs L seed (L - (l + 1))) (Zs (l + 1))) := by
  have h1 : L - l = (L - (l + 1)) + 1 := by omega
  rw [h1]
  show Mat.mul (unpack_params model (L - (L - (l + 1))) params).1.transpose
      (Mat.map2 (layerBackward vexp (actOf model (L - (L - (l + 1)))))
        (dAdown model vexp params Zs L seed (L - (l + 1)))
        (Zs (L - (L - (l + 1))))) = _
  have h2 : L - (L - (l + 1)) = l + 1 := by omega
  rw [h2]

theorem Aspec_rows_all (model : List NnLayer) (vexp : α → α) (params : ℕ → α)
    (X : Mat α) (hX : X.rows = dimOf model 0) (l : ℕ) :
    (Aspec model vexp params X l).rows = dimOf model l := by
  match l with
  | 0 => exact hX
  | n + 1 => exact Aspec_rows model vexp params X n

theorem dAdown_rows (model : List NnLayer) (vexp : α → α) (params : ℕ → α)
    (X Y : Mat α) (hYr : Y.rows = dimOf model (model.length - 1)) (l : ℕ)
    (hl : l ≤ model.length - 1) :
    (dAdown model vexp params (Zspec model vexp params X) (model.length - 1)
      (seedDA Y (Aspec model vexp params X (model.length - 1)))
      (model.length - 1 - l)).rows = dimOf model l := by
  cases h : model.length - 1 - l with
  | zero =>
    have hl2 : l = model.length - 1 := by omega
    show Y.rows = dimOf model l
    rw [hYr, hl2]
  | succ j =>
    show dimOf model (model.length - 1 - j - 1) = dimOf model l
    have harith : model.length - 1 - j - 1 = l := by omega
    rw [harith]

theorem packWrite_mid (model : List NnLayer) (k : ℕ) (h1 : 1 ≤ k)
    (h2 : k < model.length) (p1 p2 : ℕ → α) (W b : Mat α) (i : ℕ)
    (hlo : offsetBefore model k ≤ i) (hhi : i < offsetBefore model (k + 1)) :
    packWrite model k p1 W b i = packWrite model k p2 W b i := by
  rw [packWrite_apply model k h1 h2, packWrite_apply model k h1 h2]
  have hstep := offsetBefore_succ model k h1
  by_cases hw : offsetBefore model k ≤ i ∧
      i < offsetBefore model k + dimOf model (k - 1) * dimOf model k
  · rw [if_pos hw, if_pos hw]
  · rw [if_neg hw, if_neg hw, if_pos (by omega), if_pos (by omega)]

theorem bwdStep_eq (model : List NnLayer) (vexp : α → α) (lambd : α)
    (params : ℕ → α) (X Y : Mat α) (l : ℕ)
    (hl : l + 1 ≤ model.length - 1) (g : ℕ → α) :
    bwdStep model vexp lambd params
        (Alist model vexp params X (model.length - 1))
        (Zlist model vexp params X (model.length - 1)) (l + 1)
        (dAdown model vexp params (Zspec model vexp params X)
          (model.length - 1)
          (seedDA Y (Aspec model vexp params X (model.length - 1)))
          (model.length - 1 - (l + 1)), g) =
      (dAdown model vexp params (Zspec model vexp params X) (model.length - 1)
        (seedDA Y (Aspec model vexp params X (model.length - 1)))
        (model.length - 1 - l),
       packWrite model (l + 1) g (specDW model vexp lambd params X Y (l + 1))
         (specDb model vexp params X Y (l + 1))) := by
  have hz := Zlist_getD model vexp params X (model.length - 1) (l + 1)
    (by omega) hl
  have ha := Alist_getD model vexp params X (model.length - 1) (l + 1 - 1)
    (by omega)
  have hcols := Aspec_cols model vexp params X (l + 1 - 1)
  simp only [bwdStep, linear_backward]
  rw [hz, ha, hcols]
  rw [Prod.mk.injEq]
  constructor
  · rw [dAdown_step model vexp params (Zspec model vexp params X)
      (model.length - 1)
      (seedDA Y (Aspec model vexp params X (model.length - 1))) l hl]
  · rfl

theorem bwdLoop_grad (model : List NnLayer) (vexp : α → α) (lambd : α)
    (params : ℕ → α) (X Y : Mat α) :
    ∀ l, l ≤ model.length - 1 → ∀ (g : ℕ → α) (i : ℕ),
      (bwdLoop model vexp lambd params
        (Alist model vexp params X (model.length - 1))
        (Zlist model vexp params X (model.length - 1)) l
        (dAdown model vexp params (Zspec model vexp params X)
          (model.length - 1)
          (seedDA Y (Aspec model vexp params X (model.length - 1)))
          (model.length - 1 - l), g)).2 i =
      if i < offsetBefore model (l + 1)
      then gradAssemble model vexp lambd params X Y l i else g i := by
  intro l
  induction l with
  | zero =>
    intro _ g i
    rw [offsetBefore_one]
    rw [if_neg (by omega)]
    rfl
  | succ l ih =>
    intro hl g i
    show (bwdLoop model vexp lambd params
      (Alist model vexp params X (model.length - 1))
      (Zlist model vexp params X (model.length - 1)) l
      (bwdStep model vexp lambd params
        (Alist model vexp params X (model.length - 1))
        (Zlist model vexp params X (model.length - 1)) (l + 1)
        (dAdown model vexp params (Zspec model vexp params X)
          (model.length - 1)
          (seedDA Y (Aspec model vexp params X (model.length - 1)))
          (model.length - 1 - (l + 1)), g))).2 i = _
    rw [bwdStep_eq model vexp lambd params X Y l hl g]
    rw [ih (by omega)
      (packWrite model (l + 1) g (specDW model vexp lambd params X Y (l + 1))
        (specDb model vexp params X Y (l + 1))) i]
    have h2 : l + 1 < model.length := by omega
    have hmono : offsetBefore model (l + 1) ≤ offsetBefore model (l + 1 + 1) :=
      offsetBefore_mono model (by omega)
    by_cases hca : i < offsetBefore model (l + 1)
    · rw [if_pos hca, if_pos (by omega)]
      show gradAssemble model vexp lambd params X Y l i =
        packWrite model (l + 1) (gradAssemble model vexp lambd params X Y l)
          (specDW model vexp lambd params X Y (l + 1))
          (specDb model vexp params X Y (l + 1)) i
      rw [packWrite_lower model (l + 1) (by omega) h2 _ _ _ i hca]
    · rw [if_neg hca]
      by_cases hcb : i < offsetBefore model (l + 1 + 1)
      · rw [if_pos hcb]
        show packWrite model (l + 1) g _ _ i =
          packWrite model (l + 1) (gradAssemble model vexp lambd params X Y l)
            (specDW model vexp lambd params X Y (l + 1))
            (specDb model vexp params X Y (l + 1)) i
        exact packWrite_mid model (l + 1) (by omega) h2 g
          (gradAssemble model vexp lambd params X Y l) _ _ i (by omega) hcb
      · rw [if_neg hcb]
        exact packWrite_upper model (l + 1) (by omega) h2 g _ _ i (by omega)

theorem propagate_backward_eq (model : List NnLayer) (vexp : α → α)
    (lambd : α) (params : ℕ → α) (X Y : Mat α) (i : ℕ) :
    propagate_backward model vexp lambd params
        (Alist model vexp params X (model.length - 1))
        (Zlist model vexp params X (model.length - 1)) Y i =
      if i < offsetBefore model (model.length - 1 + 1)
      then gradAssemble model vexp lambd params X Y (model.length - 1) i
      else 0 := by
  unfold propagate_backward
  have hAL : (Alist model vexp params X (model.length - 1)).getD
      ((Alist model vexp params X (model.length - 1)).length - 1) default =
      Aspec model vexp params X (model.length - 1) := by
    have hlen : (Alist model vexp params X (model.length - 1)).length =
        model.length - 1 + 1 := by
      unfold Alist
      rw [List.length_map, List.length_range]
    rw [hlen]
    exact Alist_getD model vexp params X (model.length - 1)
      (model.length - 1 + 1 - 1) (by omega)
  rw [hAL]
  have hseed : seedDA Y (Aspec model vexp params X (model.length - 1)) =
      dAdown model vexp params (Zspec model vexp params X) (model.length - 1)
        (seedDA Y (Aspec model vexp params X (model.length - 1)))
        (model.length - 1 - (model.length - 1)) := by
    rw [Nat.sub_self]
    rfl
  rw [hseed]
  exact bwdLoop_grad model vexp lambd params X Y (model.length - 1) le_rfl
    (fun _ => 0) i

theorem gradAssemble_at (model : List NnLayer) (vexp : α → α) (lambd : α)
    (params : ℕ → α) (X Y : Mat α) (l : ℕ) (h1 : 1 ≤ l) :
    ∀ n, l ≤ n → n < model.length → ∀ idx,
      offsetBefore model l ≤ idx → idx < offsetBefore model (l + 1) →
      gradAssemble model vexp lambd params X Y n idx =
        packWrite model l (gradAssemble model vexp lambd params X Y (l - 1))
          (specDW model vexp lambd params X Y l)
          (specDb model vexp params X Y l) idx := by
  intro n
  induction n with
  | zero => intro hln _ _ _ _; omega
  | succ m ih =>
    intro hln hlen idx hlo hhi
    by_cases hcase : l = m + 1
    · subst hcase
      rfl
    · have hlm : l ≤ m := by omega
      show packWrite model (m + 1)
        (gradAssemble model vexp lambd params X Y m)
        (specDW model vexp lambd params X Y (m + 1))
        (specDb model vexp params X Y (m + 1)) idx = _
      rw [packWrite_lower model (m + 1) (by omega) hlen _ _ _ idx
        (by
          have : offsetBefore model (l + 1) ≤ offsetBefore model (m + 1) :=
            offsetBefore_mono model (by omega)
          omega)]
      exact ih hlm (by omega) idx hlo hhi

/-- C1: the gradient returned by the cost-and-gradient routine is exactly the
backpropagation recurrence: with seed
`dA_L = -Y/A_L + (1-Y)/max(1-A_L, 1e-8)` (ε-clamp on the `(1-A_L)` denominator
only) and, for `l = L..1`, `dZ_l = activation[l].backward(dA_l, Z[l])`,
`dW_l = (1/m)·dZ_l·A[l-1]^T + (λ/m)·W_l`, `db_l = (1/m)·row-sum(dZ_l)`,
`dA_{l-1} = W_l^T·dZ_l`, unpacking any layer `l` of the returned gradient
vector gives `(dW_l, db_l)`, and every index at or beyond the total parameter
length is still `0` (the gradient is a fresh zero vector written only at the
compiled offsets). -/
theorem backward_grad_matches_recurrence (model : List NnLayer)
    (vexp vlog : α → α) (lambd : α) (params : ℕ → α) (X Y : Mat α)
    (hm : model ≠ []) (hX : X.rows = dimOf model 0)
    (hYr : Y.rows = dimOf model (model.length - 1)) :
    (∀ l, 1 ≤ l → l < model.length →
      Mat.EqOn (unpack_params model l
        ((cost model vexp vlog lambd params X Y).2)).1
        (specDW model vexp lambd params X Y l) ∧
      Mat.EqOn (unpack_params model l
        ((cost model vexp vlog lambd params X Y).2)).2
        (specDb model vexp params X Y l)) ∧
    (∀ i, totalLen model ≤ i →
      (cost model vexp vlog lambd params X Y).2 i = 0) := by
  have hlen : model.length - 1 + 1 = model.length := by
    have : model.length ≠ 0 := fun h => hm (List.length_eq_zero.mp h)
    omega
  have hgrad : (cost model vexp vlog lambd params X Y).2 =
      propagate_backward model vexp lambd params
        (Alist model vexp params X (model.length - 1))
        (Zlist model vexp params X (model.length - 1)) Y := by
    show propagate_backward model vexp lambd params
      (propagate_forward model vexp params X).1
      (propagate_forward model vexp params X).2 Y = _
    rw [propagate_forward_eq model vexp params X]
  have hval : ∀ l, 1 ≤ l → l < model.length → ∀ idx,
      offsetBefore model l ≤ idx → idx < offsetBefore model (l + 1) →
      (cost model vexp vlog lambd params X Y).2 idx =
        packWrite model l (gradAssemble model vexp lambd params X Y (l - 1))
          (specDW model vexp lambd params X Y l)
          (specDb model vexp params X Y l) idx := by
    intro l h1 h2 idx hlo hhi
    rw [hgrad, propagate_backward_eq model vexp lambd params X Y idx]
    have hmono : offsetBefore model (l + 1) ≤
        offsetBefore model (model.length - 1 + 1) :=
      offsetBefore_mono model (by omega)
    rw [if_pos (by omega)]
    exact gradAssemble_at model vexp lambd params X Y l h1 (model.length - 1)
      (by omega) (by omega) idx hlo hhi
  refine ⟨?_, ?_⟩
  · intro l h1 h2
    have hstep := offsetBefore_succ model l h1
    refine ⟨⟨?_, ?_, ?_⟩, ⟨?_, ?_, ?_⟩⟩
    · show dimOf model l = (specDW model vexp lambd params X Y l).rows
      exact (dAdown_rows model vexp params X Y hYr l (by omega)).symm
    · show dimOf model (l - 1) = (specDW model vexp lambd params X Y l).cols
      exact (Aspec_rows_all model vexp params X hX (l - 1)).symm
    · intro i j hi hj
      have hp : 0 < dimOf model (l - 1) := by
        have hj2 : j < dimOf model (l - 1) := hj
        omega
      have hin : i * dimOf model (l - 1) + j <
          dimOf model (l - 1) * dimOf model l := by
        have hi2 : i < dimOf model l := hi
        have hj2 : j < dimOf model (l - 1) := hj
        calc i * dimOf model (l - 1) + j
            < i * dimOf model (l - 1) + dimOf model (l - 1) := by omega
          _ = (i + 1) * dimOf model (l - 1) := by ring
          _ ≤ dimOf model l * dimOf model (l - 1) :=
              Nat.mul_le_mul_right _ (by omega)
          _ = dimOf model (l - 1) * dimOf model l := Nat.mul_comm _ _
      have h := unpackW_packWrite model l h1 h2
        (gradAssemble model vexp lambd params X Y (l - 1))
        (specDW model vexp lambd params X Y l)
        (specDb model vexp params X Y l) i j hi hj
      rw [unpackW_apply model l h1 h2] at h
      rw [unpackW_apply model l h1 h2]
      show (cost model vexp vlog lambd params X Y).2
        (offsetBefore model l + (i * dimOf model (l - 1) + j)) =
        (specDW model vexp lambd params X Y l).entry i j
      rw [hval l h1 h2 (offsetBefore model l + (i * dimOf model (l - 1) + j))
        (Nat.le_add_right _ _) (by omega)]
      exact h
    · show dimOf model l = (specDb model vexp params X Y l).rows
      exact (dAdown_rows model vexp params X Y hYr l (by omega)).symm
    · rfl
    · intro i j hi hj
      have h := unpackB_packWrite model l h1 h2
        (gradAssemble model vexp lambd params X Y (l - 1))
        (specDW model vexp lambd params X Y l)
        (specDb model vexp params X Y l) i j hi
      rw [unpackB_apply model l h1 h2] at h
      rw [unpackB_apply model l h1 h2]
      show (cost model vexp vlog lambd params X Y).2
        (offsetBefore model l + dimOf model (l - 1) * dimOf model l + i) =
        (specDb model vexp params X Y l).entry i j
      have hi2 : i < dimOf model l := hi
      rw [hval l h1 h2
        (offsetBefore model l + dimOf model (l - 1) * dimOf model l + i)
        (by omega) (by omega)]
      exact h
  · intro i hi
    rw [hgrad, propagate_backward_eq model vexp lambd params X Y i]
    have htot : totalLen model = offsetBefore model (model.length - 1 + 1) := by
      unfold totalLen
      rw [hlen]
    rw [if_neg (by omega)]

/-- Witness for C1 at the model `[1, 1 sigmoid]` over `ℚ` with `vexp`,
`vlog = id`, `λ = 0`, `params ≡ 1`, `X = [[2]]`, `Y = [[1]]`. -/
theorem backward_grad_matches_recurrence_witness :
    ([⟨1, none⟩, ⟨1, some ActKind.sigmoid⟩] : List NnLayer) ≠ [] ∧
    Mat.EqOn
      (unpack_params [⟨1, none⟩, ⟨1, some ActKind.sigmoid⟩] 1
        ((cost [⟨1, none⟩, ⟨1, some ActKind.sigmoid⟩] (fun x => x) (fun x => x)
          0 (fun _ => (1 : ℚ)) ⟨1, 1, fun _ _ => 2⟩ ⟨1, 1, fun _ _ => 1⟩).2)).1
      (specDW [⟨1, none⟩, ⟨1, some ActKind.sigmoid⟩] (fun x => x) 0
        (fun _ => (1 : ℚ)) ⟨1, 1, fun _ _ => 2⟩ ⟨1, 1, fun _ _ => 1⟩ 1) :=
  ⟨by decide,
    ((backward_grad_matches_recurrence [⟨1, none⟩, ⟨1, some ActKind.sigmoid⟩]
      (fun x => x) (fun x => x) 0 (fun _ => (1 : ℚ)) ⟨1, 1, fun _ _ => 2⟩
      ⟨1, 1, fun _ _ => 1⟩ (by decide) rfl rfl).1 1 (by decide) (by decide)).1⟩

end Nn
